import Mathlib

/-!
Shallow embedding of the core of the `heyyall` HTTP load-testing engine
(scheduler validation and allocation, percentile reporter, response-handler
histogram and accumulator, requestor loop), together with proofs about it.

Conventions of the embedding:
* Go `int`/`int64`/`time.Duration` values are modelled as `ℤ` (durations
  that are produced by measuring elapsed time are non-negative and are
  modelled as `ℕ` where they enter as data).
* Go `float64` computations (`math.Ceil`, divisions, comparisons against
  bin boundaries) are modelled by exact arithmetic over `ℚ`, or by exact
  integer ceiling division where the operands are integers.
* Go maps are modelled as association lists updated in place at the first
  matching key; map iteration order is irrelevant to every statement below
  because only sums over all entries are used.
* Fallible functions return an explicit result type; a Go runtime panic
  (e.g. `%` by zero) is modelled by a dedicated `crashed` result.
-/

namespace Heyyall

/-- Embedding of `api.Endpoint` (api/config.go): the configured target of a load test. -/
structure Endpoint where
  url : String
  method : String
  rqstBody : String
  rqstPercent : ℤ
  numRequests : ℤ
deriving DecidableEq

/-- Embedding of `internal.Response` (structs.go): one observation emitted by a worker.
`requestDuration` is an elapsed time measured by `time.Since`, hence
non-negative and modelled as `ℕ` (nanoseconds). -/
structure Response where
  httpStatus : ℤ
  endpoint : Endpoint
  requestDuration : ℕ
deriving DecidableEq

/-- Result of `validateConfig` (scheduler.go). `crashed` models the Go
runtime panic raised by `concurrency % len(eps)` when `eps` is empty. -/
inductive ConfigResult where
  | ok
  | err (msg : String)
  | crashed
deriving DecidableEq

/-- Whether `validateConfig` returned an error (as opposed to succeeding
or panicking). -/
def ConfigResult.isErr : ConfigResult → Bool
  | .err _ => true
  | _ => false

/-- Embedding of `validateConfig` (scheduler.go lines 136-159). The Go comparisons are
kept verbatim; note the code tests `runDur < 1`, not `runDur == 0`.
Go's `%` is truncated division remainder while Lean's `%` on `ℤ` is the
Euclidean remainder; the two agree on the test `% == 0` (both are zero
exactly when `len(eps)` divides `concurrency`). -/
def validateConfig (concurrency rate runDur numRqsts : ℤ)
    (eps : List Endpoint) : ConfigResult :=
  if numRqsts > 0 ∧ runDur > 0 then
    .err "number of requests and run duration cannot both be non-zero"
  else if runDur < 1 ∧ numRqsts < concurrency then
    .err "number of requests must not be less than the concurrency level"
  else if runDur < 1 ∧ (eps.length : ℤ) > numRqsts then
    .err "there are more endpoints than requests"
  else if eps.length = 0 then
    .crashed
  else if ¬ (concurrency % (eps.length : ℤ) = 0) then
    .err "endpoints must distribute evenly across all goroutines"
  else if (eps.map (fun ep => ep.rqstPercent)).sum ≠ 100 then
    .err "endpoint RqstPercents must add up to 100"
  else
    .ok

/-- Exact integer ceiling division: `cdiv a b = ⌈a / b⌉` for `b ≠ 0`.
This embeds Go's `int(math.Ceil(float64(a) / float64(b)))` exactly (the
float computation is modelled as exact). For `b = 0` Go converts a NaN or
infinity to `int`, an unspecified value; here `cdiv a 0 = 0`, and every
theorem below either assumes the divisor is non-zero or multiplies the
quotient by the (zero) divisor, which makes the convention irrelevant. -/
def cdiv (a b : ℤ) : ℤ :=
  if 0 ≤ b then -((-a) / b) else -(a / (-b))

/-- Embedding of `Scheduler.calcEPConfig` (scheduler.go lines 103-134), parameterised by
the scheduler fields it reads. Returns
`(numRqstsPerGoroutine, numEPGoroutines, epGoroutineRqstRate)` in the
order of the Go result. Every rounding in the source is a `math.Ceil`. -/
def calcEPConfig (concurrency numRqsts rqstRate : ℤ) (ep : Endpoint) :
    ℤ × ℤ × ℤ :=
  let numEPGoroutines := cdiv (concurrency * ep.rqstPercent) 100
  let numEPRqsts := cdiv (numRqsts * ep.rqstPercent) 100
  let numRqstsPerGoroutine := cdiv numEPRqsts numEPGoroutines
  let epRqstRate := cdiv (rqstRate * ep.rqstPercent) 100
  let epGoroutineRqstRate := cdiv epRqstRate numEPGoroutines
  (numRqstsPerGoroutine, numEPGoroutines, epGoroutineRqstRate)

/-! ### Reporter (reporter.go) -/

/-- Embedding of `sort.Slice(results, ...)` ascending (reporter.go): the sorted
permutation of the duration list. -/
def sortResults (results : List ℕ) : List ℕ :=
  results.insertionSort (fun a b => a ≤ b)

/-- Embedding of `calcPMin` (reporter.go lines 170-176). -/
def calcPMin (results : List ℕ) : ℕ :=
  if results = [] then 0
  else (sortResults results).getD 0 0

/-- Embedding of `calcPMedian` (reporter.go lines 178-192). The even-length average is
Go `time.Duration` division, i.e. integer division by 2. -/
def calcPMedian (results : List ℕ) : ℕ :=
  if results = [] then 0
  else
    let s := sortResults results
    let mNumber := results.length / 2
    if ¬ (results.length % 2 = 0) then s.getD mNumber 0
    else (s.getD (mNumber - 1) 0 + s.getD mNumber 0) / 2

/-- The index `math.Ceil(math.Ceil(float64((n-1)*p)) / 100)` of
`calcPercentiles` (reporter.go line 166): `(n-1)*p` is computed in integer
arithmetic, so the inner ceiling is the identity and the outer ceiling is
exact natural ceiling division by 100. -/
def percentileIndex (n p : ℕ) : ℕ :=
  ((n - 1) * p + 99) / 100

/-- Embedding of `calcPercentiles` (reporter.go lines 148-168). Out-of-range indexing
would panic in Go; `getD` is used here and the in-bounds proof is given
separately. -/
def calcPercentiles (percentile : ℕ) (results : List ℕ) : ℕ :=
  if results = [] then 0
  else if percentile = 0 then calcPMin results
  else if percentile = 50 then calcPMedian results
  else (sortResults results).getD (percentileIndex results.length percentile) 0

/-- Modelled from the spec: "median: for even-length sets, average of the
two central values; for odd-length, the exact center value" (the average
of two integer durations being integer division by 2). -/
def specMedian (results : List ℕ) : ℕ :=
  let s := sortResults results
  if results.length % 2 = 1 then s.getD (results.length / 2) 0
  else (s.getD (results.length / 2 - 1) 0 + s.getD (results.length / 2) 0) / 2

/-- Modelled from the spec: "percentile(p, data): sort ascending;
index = ceil(ceil((n-1)*p) / 100); return data[index]", with the two
ceilings taken over exact rational arithmetic. -/
def specPercentile (p : ℕ) (results : List ℕ) : ℕ :=
  let s := sortResults results
  s.getD (⌈(⌈(((results.length - 1) * p : ℕ) : ℚ)⌉ : ℚ) / 100⌉.toNat) 0

/-! ### Response handler: histogram (responseHandler.go) -/

/-- Fuel-based ceiling base-2 logarithm: `clog2Aux fuel m = ⌈log₂ m⌉`
whenever `m ≤ fuel + 1` (each step halves `m`, rounding up). -/
def clog2Aux : ℕ → ℕ → ℕ
  | 0, _ => 0
  | fuel + 1, m => if m ≤ 1 then 0 else clog2Aux fuel ((m + 1) / 2) + 1

/-- Embedding of `calcNumBinsSturgesMethod` (responseHandler.go lines 410-412):
`int(math.Ceil(math.Log2(float64(numObservations) + 1)))`, the logarithm
taken exactly. -/
def calcNumBinsSturgesMethod (numObservations : ℕ) : ℕ :=
  clog2Aux (numObservations + 1) (numObservations + 1)

/-- The running maximum of `accumulateResponseStats` applied to the whole
duration list: `MaxRqstDuration` starts at `time.Duration(-1)` (Start,
responseHandler.go line 135) and each response with a strictly larger
duration replaces it. -/
def maxDurAccum (l : List ℕ) : ℤ :=
  l.foldl (fun (acc : ℤ) (d : ℕ) => if (d : ℤ) > acc then (d : ℤ) else acc) (-1)

/-- The running minimum of `accumulateResponseStats`: `MinRqstDuration`
starts at `math.MaxInt64` and each strictly smaller duration replaces it. -/
def minDurAccum (l : List ℕ) : ℤ :=
  l.foldl (fun (acc : ℤ) (d : ℕ) => if (d : ℤ) < acc then (d : ℤ) else acc) (2 ^ 63 - 1)

/-- Number of bins computed by `generateHistogram` for a result list. -/
def sturgesBins (l : List ℕ) : ℕ :=
  calcNumBinsSturgesMethod l.length

/-- Value `NormalizedMaxRqstDuration = time.Duration(rh.NormFactor) * MinRqstDuration`
(responseHandler.go line 319). -/
def normalizedMaxDur (l : List ℕ) (normFactor : ℕ) : ℤ :=
  (normFactor : ℤ) * minDurAccum l

/-- Embedding of `binWidth` (responseHandler.go lines 322-327): `Max / numBins`, or
`min(Max, NormalizedMax) / numBins` when `NormFactor > 1`. -/
def histBinWidth (l : List ℕ) (normFactor : ℕ) : ℚ :=
  if 1 < normFactor then
    (min ((maxDurAccum l : ℤ) : ℚ) ((normalizedMaxDur l normFactor : ℤ) : ℚ)) /
      (sturgesBins l : ℚ)
  else ((maxDurAccum l : ℤ) : ℚ) / (sturgesBins l : ℚ)

/-- Embedding of `binValues` (responseHandler.go lines 329-334): the ascending list
`[1*binWidth, ..., numBins*binWidth]` of bin upper bounds. -/
def histBinValues (l : List ℕ) (normFactor : ℕ) : List ℚ :=
  (List.range (sturgesBins l)).map
    (fun (i : ℕ) => ((i : ℚ) + 1) * histBinWidth l normFactor)

/-- Increment a histogram (a finitely supported count function) at key `k`. -/
def bumpAt (h : ℚ → ℕ) (k : ℚ) : ℚ → ℕ :=
  fun x => if x = k then h k + 1 else h x

/-- One iteration of the observation loop (responseHandler.go lines
342-353): the observation is counted in the first bin value that is
`>=` it (Go compares `float64(observation) <= binVal`), if any. -/
def assignObs (binValues : List ℚ) (h : ℚ → ℕ) (obs : ℕ) : ℚ → ℕ :=
  match binValues.find? (fun b => decide ((obs : ℚ) ≤ b)) with
  | some k => bumpAt h k
  | none => h

/-- The bin counts after the whole observation loop. -/
def histFilled (l : List ℕ) (normFactor : ℕ) : ℚ → ℕ :=
  l.foldl (assignObs (histBinValues l normFactor)) (fun _ => 0)

/-- Value `largestBinKey := binWidth * float64(numBins)` (responseHandler.go
line 365). -/
def largestBinKey (l : List ℕ) (normFactor : ℕ) : ℚ :=
  histBinWidth l normFactor * (sturgesBins l : ℚ)

/-- Embedding of `tailBinCount` (responseHandler.go lines 366-371): the number of
observations strictly greater than the largest regular bin key. -/
def tailBinCount (l : List ℕ) (normFactor : ℕ) : ℕ :=
  (l.filter
    (fun (obs : ℕ) => decide (largestBinKey l normFactor < (obs : ℚ)))).length

/-- The histogram map: its key set and its count function. Keys are the
distinct bin values (Go map keys; assigning `histogram[k] = 0` twice for a
repeated `binValue` keeps one entry), plus the tail key when present. -/
structure Histogram where
  keys : List ℚ
  counts : ℚ → ℕ

/-- Embedding of `ResponseHandler.generateHistogram` (responseHandler.go lines 316-378)
restricted to the histogram it builds (the returned min/max bin counts are
not modelled). When normalization clamps the range below the true max, a
tail bin keyed at the true max holds all observations beyond the largest
regular bin boundary (lines 361-375); Go overwrites `histogram[max]`,
which collides with no regular key, as proved below. -/
def generateHistogram (l : List ℕ) (normFactor : ℕ) : Histogram :=
  if 1 < normFactor ∧ normalizedMaxDur l normFactor < maxDurAccum l then
    { keys := if ((maxDurAccum l : ℤ) : ℚ) ∈ (histBinValues l normFactor).dedup
              then (histBinValues l normFactor).dedup
              else (histBinValues l normFactor).dedup ++ [((maxDurAccum l : ℤ) : ℚ)],
      counts := fun x => if x = ((maxDurAccum l : ℤ) : ℚ) then tailBinCount l normFactor
                         else histFilled l normFactor x }
  else { keys := (histBinValues l normFactor).dedup,
         counts := histFilled l normFactor }

/-- The total observation count recorded in a histogram: the sum of the
counts over all its keys. -/
def histTotalCount (h : Histogram) : ℕ :=
  (h.keys.map h.counts).sum

/-! ### Response handler: accumulator (responseHandler.go lines 252-310) -/

/-- The four `RqstStats` fields mutated by `accumulateResponseStats`
(count, duration sum, max, min); max starts at `-1` and min at
`math.MaxInt64`. -/
structure RqstStatsAcc where
  totalRqsts : ℕ
  totalRequestDuration : ℕ
  maxRqstDuration : ℤ
  minRqstDuration : ℤ
deriving DecidableEq

/-- A fresh `RqstStats` as created for a newly seen (endpoint, method)
pair (responseHandler.go lines 286-289). -/
def freshRqstStats : RqstStatsAcc :=
  { totalRqsts := 0, totalRequestDuration := 0
    maxRqstDuration := -1, minRqstDuration := 2 ^ 63 - 1 }

/-- Embedding of `internal.EndpointDetail`: per-URL status distribution and request
stats, both keyed by HTTP method. -/
structure EndpointDetailAcc where
  url : String
  httpMethodStatusDist : List (String × List (ℤ × ℕ))
  httpMethodRqstStats : List (String × RqstStatsAcc)
deriving DecidableEq

/-- The mutable accumulation state of `ResponseHandler.Start`:
the timing list, `totalRunTime`, the global `RqstStats`, the
`EndpointSummary` counts and the per-endpoint details. -/
structure AccumState where
  timingResults : List ℕ
  totalRunTime : ℕ
  globalStats : RqstStatsAcc
  endpointSummary : List (String × List (String × ℕ))
  epRunSummary : List (String × EndpointDetailAcc)

/-- The state at the start of `ResponseHandler.Start` (responseHandler.go
lines 133-137). -/
def initAccumState : AccumState :=
  { timingResults := [], totalRunTime := 0
    globalStats := { totalRqsts := 0, totalRequestDuration := 0
                     maxRqstDuration := -1, minRqstDuration := 2 ^ 63 - 1 }
    endpointSummary := [], epRunSummary := [] }

/-- Go-map update at a key: apply `f` to the stored value, or to the
default `d` when the key is absent (covering Go's create-then-mutate
pattern). The first matching entry is updated; starting from an empty
list keys stay distinct. -/
def updateAssoc {α β : Type} [DecidableEq α] :
    List (α × β) → α → (β → β) → β → List (α × β)
  | [], key, f, d => [(key, f d)]
  | (k, v) :: rest, key, f, d =>
      if k = key then (k, f v) :: rest
      else (k, v) :: updateAssoc rest key f d

/-- Sum of `f` over all values of an association list. -/
def sumAssoc {α β : Type} (m : List (α × β)) (f : β → ℕ) : ℕ :=
  (m.map (fun p => f p.2)).sum

/-- The update applied to a per-method `RqstStats` for one response
(responseHandler.go lines 293-301). -/
def bumpRqstStats (dur : ℕ) (ms : RqstStatsAcc) : RqstStatsAcc :=
  { totalRqsts := ms.totalRqsts + 1
    totalRequestDuration := ms.totalRequestDuration + dur
    maxRqstDuration := if (dur : ℤ) > ms.maxRqstDuration then (dur : ℤ)
                       else ms.maxRqstDuration
    minRqstDuration := if (dur : ℤ) < ms.minRqstDuration then (dur : ℤ)
                       else ms.minRqstDuration }

/-- Embedding of `ResponseHandler.accumulateResponseStats` (responseHandler.go lines
252-310): append the duration, update the global stats and
`totalRunTime`, bump `EndpointSummary[url][method]`, locate-or-create the
`EndpointDetail`, bump its per-method `RqstStats`, and bump its per-method
status distribution (created with count 0 and then incremented). -/
def accumulateResponseStats (resp : Response) (s : AccumState) : AccumState :=
  let dur := resp.requestDuration
  { timingResults := s.timingResults ++ [dur]
    totalRunTime := s.totalRunTime + dur
    globalStats := bumpRqstStats dur s.globalStats
    endpointSummary :=
      updateAssoc s.endpointSummary resp.endpoint.url
        (fun inner => updateAssoc inner resp.endpoint.method (fun c => c + 1) 0) []
    epRunSummary :=
      updateAssoc s.epRunSummary resp.endpoint.url
        (fun detail =>
          { detail with
            httpMethodRqstStats :=
              updateAssoc detail.httpMethodRqstStats resp.endpoint.method
                (bumpRqstStats dur) freshRqstStats
            httpMethodStatusDist :=
              updateAssoc detail.httpMethodStatusDist resp.endpoint.method
                (fun inner => updateAssoc inner resp.httpStatus (fun c => c + 1) 0) [] })
        { url := resp.endpoint.url, httpMethodStatusDist := []
          httpMethodRqstStats := [] } }

/-- Accumulate a whole arrival sequence starting from a state. -/
def accumulateFrom (rs : List Response) (s : AccumState) : AccumState :=
  rs.foldl (fun st r => accumulateResponseStats r st) s

/-- Accumulate a whole arrival sequence from the fresh state. -/
def accumulateList (rs : List Response) : AccumState :=
  accumulateFrom rs initAccumState

/-- Sum over all endpoint URLs and methods of the per-method
`RqstStats.TotalRqsts`. -/
def methodTotalsSum (s : AccumState) : ℕ :=
  sumAssoc s.epRunSummary
    (fun d => sumAssoc d.httpMethodRqstStats (fun ms => ms.totalRqsts))

/-- Sum of every status count in every `HTTPMethodStatusDist`. -/
def statusCountsSum (s : AccumState) : ℕ :=
  sumAssoc s.epRunSummary
    (fun d => sumAssoc d.httpMethodStatusDist (fun inner => sumAssoc inner id))

/-! ### Requestor (src/unnamed/part_011, `Requestor.ProcessRqst`) -/

/-- The outcome of one injected `client.Do` call, as discriminated by the
error handling at part_011 lines 99-109: success with a status code and a
measured duration, a `*url.Error` that reports a timeout, a `*url.Error`
that does not (e.g. connection refused), or an error of any other type. -/
inductive CallResult where
  | success (status : ℤ) (duration : ℕ)
  | urlErrorTimeout
  | urlErrorNonTimeout
  | otherError
deriving DecidableEq

/-- How the worker loop terminates. `nilDerefCrash` models the nil-pointer
dereference of `resp.Body` at part_011 line 111 reached when a
non-timeout `*url.Error` falls out of the type switch without returning:
a Go runtime panic, not a logged abort. -/
inductive WorkerExit where
  | completed
  | timeoutAbort
  | loggedErrorAbort
  | nilDerefCrash
deriving DecidableEq

/-- The request loop of `Requestor.ProcessRqst` (part_011 lines 96-140)
over the injected call outcomes of its successive iterations (one entry
per allocated request). Returns the responses emitted on `ResponseC` and
how the loop ended. Cancellation via `ctx.Done` and the rate-limiting
sleep do not affect emission and are not modelled. -/
def processRqstLoop : List CallResult → List (ℤ × ℕ) × WorkerExit
  | [] => ([], .completed)
  | .success status dur :: rest =>
      let r := processRqstLoop rest
      ((status, dur) :: r.1, r.2)
  | .urlErrorTimeout :: _ => ([], .timeoutAbort)
  | .urlErrorNonTimeout :: _ => ([], .nilDerefCrash)
  | .otherError :: _ => ([], .loggedErrorAbort)

/-- A 100%-weight endpoint used in concrete instances. -/
def epGet100 : Endpoint :=
  { url := "http://somewhere.com/xyz", method := "GET", rqstBody := ""
    rqstPercent := 100, numRequests := 0 }

/-- An endpoint with weight `-145` (weights are unvalidated `int`s). -/
def epNeg145 : Endpoint :=
  { url := "http://somewhere.com/neg", method := "GET", rqstBody := ""
    rqstPercent := -145, numRequests := 0 }

/-- An endpoint with weight `245`. -/
def epPos245 : Endpoint :=
  { url := "http://somewhere.com/pos", method := "PUT", rqstBody := ""
    rqstPercent := 245, numRequests := 0 }

/-- The failure condition asserted by the specification claim for
`validateConfig` (with `runDuration == 0`, as the claim states it). -/
def claimedFailCond (concurrency rate runDur numRqsts : ℤ)
    (eps : List Endpoint) : Prop :=
  (numRqsts > 0 ∧ runDur > 0) ∨
  (runDur = 0 ∧ numRqsts < concurrency) ∨
  (runDur = 0 ∧ (eps.length : ℤ) > numRqsts) ∨
  ¬ (concurrency % (eps.length : ℤ) = 0) ∨
  (eps.map (fun ep => ep.rqstPercent)).sum ≠ 100

/-- The failure condition with `runDuration == 0` amended to the code's
`runDuration < 1`. -/
def amendedFailCond (concurrency rate runDur numRqsts : ℤ)
    (eps : List Endpoint) : Prop :=
  (numRqsts > 0 ∧ runDur > 0) ∨
  (runDur < 1 ∧ numRqsts < concurrency) ∨
  (runDur < 1 ∧ (eps.length : ℤ) > numRqsts) ∨
  ¬ (concurrency % (eps.length : ℤ) = 0) ∨
  (eps.map (fun ep => ep.rqstPercent)).sum ≠ 100

instance (c r d n : ℤ) (eps : List Endpoint) :
    Decidable (claimedFailCond c r d n eps) := by
  unfold claimedFailCond; infer_instance

instance (c r d n : ℤ) (eps : List Endpoint) :
    Decidable (amendedFailCond c r d n eps) := by
  unfold amendedFailCond; infer_instance

/-! ## Helper lemmas -/

/-- Natural ceiling division by 100 agrees with the rational ceiling,
the exact content of the outer `math.Ceil` in `calcPercentiles`. -/
theorem natCeilDiv_cast (k : ℕ) :
    (((k + 99) / 100 : ℕ) : ℤ) = ⌈(k : ℚ) / 100⌉ := by
  set m : ℕ := (k + 99) / 100 with hm
  have hm1 : 100 * m ≤ k + 99 := by omega
  have hm2 : k ≤ 100 * m := by omega
  have hcast : (((m : ℤ)) : ℚ) = (m : ℚ) := by push_cast; ring
  symm
  rw [Int.ceil_eq_iff]
  refine ⟨?_, ?_⟩
  · rw [hcast, lt_div_iff₀ (by norm_num : (0 : ℚ) < 100)]
    have h : (100 : ℚ) * (m : ℚ) ≤ (k : ℚ) + 99 := by exact_mod_cast hm1
    linarith
  · rw [hcast, div_le_iff₀ (by norm_num : (0 : ℚ) < 100)]
    have h : (k : ℚ) ≤ 100 * (m : ℚ) := by exact_mod_cast hm2
    linarith

/-- The index used by `calcPercentiles` equals the double-ceiling index of
the specification. -/
theorem percentileIndex_eq_spec (n p : ℕ) :
    percentileIndex n p = (⌈(⌈(((n - 1) * p : ℕ) : ℚ)⌉ : ℚ) / 100⌉).toNat := by
  rw [Int.ceil_natCast]
  unfold percentileIndex
  have h := natCeilDiv_cast ((n - 1) * p)
  have hc : ((((n - 1) * p : ℕ) : ℤ) : ℚ) = (((n - 1) * p : ℕ) : ℚ) := by push_cast; ring
  rw [hc, ← h, Int.toNat_natCast]

/-- The percentile index stays strictly below the list length for every
percentile up to 99. -/
theorem percentileIndex_lt (n p : ℕ) (hn : 1 ≤ n) (hp : p ≤ 99) :
    percentileIndex n p < n := by
  unfold percentileIndex
  have h : (n - 1) * p ≤ (n - 1) * 99 := Nat.mul_le_mul_left _ hp
  obtain ⟨m, hm⟩ : ∃ m, (n - 1) * p = m := ⟨_, rfl⟩
  rw [hm] at h ⊢
  omega

/-- For every percentile of at least 75 the percentile index is at least
the median position `n / 2`. -/
theorem percentileIndex_ge_half (n p : ℕ) (hp : 75 ≤ p) :
    n / 2 ≤ percentileIndex n p := by
  unfold percentileIndex
  have h : (n - 1) * 75 ≤ (n - 1) * p := Nat.mul_le_mul_left _ hp
  obtain ⟨m, hm⟩ : ∃ m, (n - 1) * p = m := ⟨_, rfl⟩
  rw [hm] at h ⊢
  omega

/-- Sorting with `sortResults` preserves length. -/
theorem sortResults_length (l : List ℕ) : (sortResults l).length = l.length :=
  List.length_insertionSort _ l

/-- Sorting with `sortResults` yields an ascending list. -/
theorem sortResults_sorted (l : List ℕ) :
    List.Sorted (fun a b => a ≤ b) (sortResults l) :=
  List.sorted_insertionSort _ l

/-- Indexing a sorted result list is monotone. -/
theorem sortResults_getD_mono (l : List ℕ) (i j : ℕ) (hij : i ≤ j)
    (hj : j < (sortResults l).length) :
    (sortResults l).getD i 0 ≤ (sortResults l).getD j 0 := by
  have hi : i < (sortResults l).length := lt_of_le_of_lt hij hj
  rw [List.getD_eq_getElem _ _ hi, List.getD_eq_getElem _ _ hj]
  have hs := sortResults_sorted l
  have h := hs.rel_get_of_le (a := ⟨i, hi⟩) (b := ⟨j, hj⟩) hij
  simpa using h

/-- The median never exceeds any sorted entry at or beyond position
`n / 2`. -/
theorem calcPMedian_le_getD (l : List ℕ) (hne : l ≠ []) (idx : ℕ)
    (hge : l.length / 2 ≤ idx) (hlt : idx < (sortResults l).length) :
    calcPMedian l ≤ (sortResults l).getD idx 0 := by
  have hn : 1 ≤ l.length := List.length_pos.mpr hne
  have hmid : l.length / 2 < (sortResults l).length := by
    rw [sortResults_length]; omega
  have hmono := sortResults_getD_mono l (l.length / 2) idx hge hlt
  unfold calcPMedian
  rw [if_neg hne]
  by_cases hpar : l.length % 2 = 0
  · rw [if_neg (by simpa using hpar)]
    have hlow := sortResults_getD_mono l (l.length / 2 - 1) (l.length / 2)
      (by omega) hmid
    omega
  · rw [if_pos hpar]
    exact hmono

/-- Function `cdiv` is the exact rational ceiling of the division for any non-zero
divisor: this is `int(math.Ceil(float64(a)/float64(b)))` in exact
arithmetic, for operands of either sign. -/
theorem cdiv_eq_ceil (a b : ℤ) (hb : b ≠ 0) :
    cdiv a b = ⌈(a : ℚ) / (b : ℚ)⌉ := by
  rcases lt_or_gt_of_ne hb with hneg | hpos
  · have h0 : ¬ (0 ≤ b) := by omega
    have hbn : (((-b).toNat : ℕ) : ℤ) = -b := Int.toNat_of_nonneg (by omega)
    have hq : (((-b).toNat : ℕ) : ℚ) = ((-b : ℤ) : ℚ) := by exact_mod_cast hbn
    rw [cdiv, if_neg h0]
    have hfl := Rat.floor_intCast_div_natCast a (-b).toNat
    rw [hq, hbn] at hfl
    have hdiv : (a : ℚ) / (b : ℚ) = -((a : ℚ) / ((-b : ℤ) : ℚ)) := by
      push_cast
      rw [div_neg, neg_neg]
    rw [hdiv, Int.ceil_neg, hfl]
  · have h0 : (0 : ℤ) ≤ b := le_of_lt hpos
    have hbn : ((b.toNat : ℕ) : ℤ) = b := Int.toNat_of_nonneg h0
    have hq : ((b.toNat : ℕ) : ℚ) = ((b : ℤ) : ℚ) := by exact_mod_cast hbn
    rw [cdiv, if_pos h0]
    have hfl := Rat.floor_intCast_div_natCast (-a) b.toNat
    rw [hq, hbn] at hfl
    have hdiv : ((-a : ℤ) : ℚ) / ((b : ℤ) : ℚ) = -((a : ℚ) / (b : ℚ)) := by
      push_cast
      ring
    rw [hdiv, Int.floor_neg] at hfl
    omega

/-- Ceilings are superadditive over list sums. -/
theorem ceil_sum_le (xs : List ℚ) :
    ⌈xs.sum⌉ ≤ (xs.map (fun x => ⌈x⌉)).sum := by
  induction xs with
  | nil => simp
  | cons x xs ih =>
      simp only [List.sum_cons, List.map_cons]
      have h := Int.ceil_add_le x xs.sum
      omega

/-- Successful validation forces the endpoint weights to sum to 100. -/
theorem validateConfig_ok_sum {c r dur n : ℤ} {eps : List Endpoint}
    (h : validateConfig c r dur n eps = ConfigResult.ok) :
    (eps.map (fun ep => ep.rqstPercent)).sum = 100 := by
  unfold validateConfig at h
  split_ifs at h
  all_goals simp_all

/-- Pulling the division by 100 out of a mapped sum. -/
theorem sum_map_cast_div (eps : List Endpoint) (f : Endpoint → ℤ) :
    (eps.map (fun ep => ((f ep : ℤ) : ℚ) / 100)).sum
      = (((eps.map f).sum : ℤ) : ℚ) / 100 := by
  induction eps with
  | nil => simp
  | cons e es ih =>
      simp only [List.map_cons, List.sum_cons, ih]
      push_cast
      ring

/-- Pulling a constant multiplier out of a mapped sum of weights. -/
theorem sum_map_mul_pct (a : ℤ) (eps : List Endpoint) :
    (eps.map (fun ep => a * ep.rqstPercent)).sum
      = a * (eps.map (fun ep => ep.rqstPercent)).sum := by
  induction eps with
  | nil => simp
  | cons e es ih => simp [List.sum_cons, ih, mul_add]

/-- Ceiling allocation of `a` across weights summing to 100 never
under-allocates `a` itself. -/
theorem sum_cdiv_pct_ge (a : ℤ) (eps : List Endpoint)
    (hsum : (eps.map (fun ep => ep.rqstPercent)).sum = 100) :
    a ≤ (eps.map (fun ep => cdiv (a * ep.rqstPercent) 100)).sum := by
  have hmap : eps.map (fun ep => cdiv (a * ep.rqstPercent) 100)
      = (eps.map (fun ep => ((a * ep.rqstPercent : ℤ) : ℚ) / 100)).map
          (fun x => ⌈x⌉) := by
    rw [List.map_map]
    exact List.map_congr_left (fun ep _ => cdiv_eq_ceil _ _ (by norm_num))
  rw [hmap]
  have h2 := ceil_sum_le (eps.map (fun ep => ((a * ep.rqstPercent : ℤ) : ℚ) / 100))
  have h3 : (eps.map (fun ep => ((a * ep.rqstPercent : ℤ) : ℚ) / 100)).sum
      = (a : ℚ) := by
    rw [sum_map_cast_div eps (fun ep => a * ep.rqstPercent), sum_map_mul_pct, hsum]
    push_cast
    ring
  rw [h3, Int.ceil_intCast] at h2
  exact h2

/-- Function `cdiv` with numerator zero is zero. -/
theorem cdiv_zero_num (b : ℤ) : cdiv 0 b = 0 := by
  unfold cdiv
  split_ifs <;> simp

/-- A positive-weight endpoint gets at least one goroutine when the
concurrency level is at least 1. -/
theorem cdiv_pos_of_pos (c pct : ℤ) (hc : 1 ≤ c) (hpct : 0 < pct) :
    0 < cdiv (c * pct) 100 := by
  rw [cdiv_eq_ceil _ _ (by norm_num), Int.ceil_pos]
  apply div_pos
  · exact_mod_cast mul_pos (by omega : (0 : ℤ) < c) hpct
  · norm_num

/-- Ceiling division by a positive divisor, multiplied back by the
divisor, dominates the dividend. -/
theorem cdiv_mul_self_ge (e w : ℤ) (hw : 0 < w) : e ≤ cdiv e w * w := by
  have hwne : w ≠ 0 := by omega
  have hle : ((e : ℚ) / (w : ℚ)) ≤ ((cdiv e w : ℤ) : ℚ) := by
    rw [cdiv_eq_ceil e w hwne]
    exact Int.le_ceil _
  have hwq : (0 : ℚ) < (w : ℚ) := by exact_mod_cast hw
  have h := mul_le_mul_of_nonneg_right hle (le_of_lt hwq)
  rw [div_mul_cancel₀ _ (ne_of_gt hwq)] at h
  exact_mod_cast h

/-- Per-endpoint: per-worker requests times worker count dominates the
endpoint's request allocation, for non-negative weights and positive
concurrency. -/
theorem ep_alloc_term_ge (c n pct : ℤ) (hc : 1 ≤ c) (hpct : 0 ≤ pct) :
    cdiv (n * pct) 100
      ≤ cdiv (cdiv (n * pct) 100) (cdiv (c * pct) 100) * cdiv (c * pct) 100 := by
  rcases eq_or_lt_of_le hpct with h0 | hpos
  · rw [← h0]
    simp [cdiv_zero_num]
  · exact cdiv_mul_self_ge _ _ (cdiv_pos_of_pos c pct hc hpos)

/-! ## C10: percentile functions on the empty observation list -/

/-- C10: for every percentile `p`, `calcPercentiles p []` is the zero
duration, and `calcPMin [] = 0` and `calcPMedian [] = 0`: the percentile
functions never fail on an empty observation list. -/
theorem empty_input_percentiles_zero :
    (∀ p : ℕ, calcPercentiles p [] = 0) ∧ calcPMin [] = 0 ∧ calcPMedian [] = 0 :=
  ⟨fun _ => rfl, rfl, rfl⟩

/-! ## C9: percentile index safety -/

/-- C9: for every non-empty duration list of length `n` and every
percentile `p ∈ {75, 90, 95, 99}`, the index `ceil(ceil((n-1)*p)/100)`
computed by `calcPercentiles` is at most `n - 1`, hence indexing into the
sorted list is in bounds and cannot panic. -/
theorem percentile_index_in_bounds (l : List ℕ) (p : ℕ) (hne : l ≠ [])
    (hp : p ∈ ([75, 90, 95, 99] : List ℕ)) :
    percentileIndex l.length p ≤ l.length - 1 ∧
    percentileIndex l.length p < (sortResults l).length ∧
    calcPercentiles p l = (sortResults l).getD (percentileIndex l.length p) 0 := by
  have hn : 1 ≤ l.length := List.length_pos.mpr hne
  have hp99 : p ≤ 99 := by fin_cases hp <;> decide
  have hp75 : 75 ≤ p := by fin_cases hp <;> decide
  have hlt := percentileIndex_lt l.length p hn hp99
  refine ⟨by omega, by rw [sortResults_length]; exact hlt, ?_⟩
  unfold calcPercentiles
  rw [if_neg hne, if_neg (by omega : p ≠ 0), if_neg (by omega : p ≠ 50)]

/-- Witness for C9 at the concrete list `[5, 6]` and `p = 75`. -/
theorem percentile_index_in_bounds_witness :
    (([5, 6] : List ℕ) ≠ [] ∧ 75 ∈ ([75, 90, 95, 99] : List ℕ)) ∧
    percentileIndex 2 75 ≤ 1 :=
  ⟨⟨by decide, by decide⟩,
   (percentile_index_in_bounds [5, 6] 75 (by decide) (by decide)).1⟩

/-! ## C7: upward percentile bias -/

/-- C7: for every non-empty duration list and every
`p ∈ {75, 90, 95, 99}`, `calcPercentiles p` is at least `calcPMedian`:
the double-ceiling index never falls below the median position. -/
theorem percentiles_never_below_median (l : List ℕ) (p : ℕ) (hne : l ≠ [])
    (hp : p ∈ ([75, 90, 95, 99] : List ℕ)) :
    calcPMedian l ≤ calcPercentiles p l := by
  have hn : 1 ≤ l.length := List.length_pos.mpr hne
  have hp99 : p ≤ 99 := by fin_cases hp <;> decide
  have hp75 : 75 ≤ p := by fin_cases hp <;> decide
  have hlt : percentileIndex l.length p < (sortResults l).length := by
    rw [sortResults_length]; exact percentileIndex_lt _ _ hn hp99
  have hbound := calcPMedian_le_getD l hne (percentileIndex l.length p)
    (percentileIndex_ge_half l.length p hp75) hlt
  unfold calcPercentiles
  rw [if_neg hne, if_neg (by omega : p ≠ 0), if_neg (by omega : p ≠ 50)]
  exact hbound

/-- Witness for C7 at the concrete list `[10, 100]` and `p = 75`. -/
theorem percentiles_never_below_median_witness :
    (([10, 100] : List ℕ) ≠ [] ∧ 75 ∈ ([75, 90, 95, 99] : List ℕ)) ∧
    calcPMedian [10, 100] ≤ calcPercentiles 75 [10, 100] :=
  ⟨⟨by decide, by decide⟩,
   percentiles_never_below_median [10, 100] 75 (by decide) (by decide)⟩

/-! ## C6: the percentile calculator against the spec reference -/

/-- C6: on every non-empty duration list the code's median and percentile
functions agree with the specification's reference definitions, and in
particular `calcPMedian [100ms, 1000ms] = 550ms` and
`calcPercentiles 75 [100ms, 1000ms] = 1000ms` (durations in
nanoseconds). -/
theorem percentiles_match_spec (l : List ℕ) (hne : l ≠ []) :
    calcPMedian l = specMedian l ∧
    (∀ p ∈ ([75, 90, 95, 99] : List ℕ), calcPercentiles p l = specPercentile p l) ∧
    calcPMedian [100000000, 1000000000] = 550000000 ∧
    calcPercentiles 75 [100000000, 1000000000] = 1000000000 := by
  refine ⟨?_, ?_, by decide, by decide⟩
  · unfold calcPMedian specMedian
    rw [if_neg hne]
    rcases Nat.mod_two_eq_zero_or_one l.length with h | h
    · rw [if_neg (by simpa using h), if_neg (by omega)]
    · rw [if_pos (by omega), if_pos h]
  · intro p hp
    have hp75 : 75 ≤ p := by fin_cases hp <;> decide
    unfold calcPercentiles specPercentile
    rw [if_neg hne, if_neg (by omega : p ≠ 0), if_neg (by omega : p ≠ 50),
      percentileIndex_eq_spec]

/-- Witness for C6 at the concrete list `[100ms, 1000ms]`. -/
theorem percentiles_match_spec_witness :
    (([100000000, 1000000000] : List ℕ) ≠ []) ∧
    calcPMedian [100000000, 1000000000] = specMedian [100000000, 1000000000] :=
  ⟨by decide, (percentiles_match_spec [100000000, 1000000000] (by decide)).1⟩

/-! ## C1: histogram count conservation -/

/-- The fold computing the running maximum never drops below its start. -/
theorem foldlMax_init_le (l : List ℕ) : ∀ acc : ℤ,
    acc ≤ l.foldl (fun (acc : ℤ) (d : ℕ) => if (d : ℤ) > acc then (d : ℤ) else acc) acc := by
  induction l with
  | nil => intro acc; simp
  | cons x xs ih =>
      intro acc
      rw [List.foldl_cons]
      refine le_trans ?_ (ih _)
      split_ifs with h <;> omega

/-- Every observed duration is bounded by the accumulated maximum. -/
theorem le_maxDurAccum (l : List ℕ) (d : ℕ) (hd : d ∈ l) :
    (d : ℤ) ≤ maxDurAccum l := by
  have main : ∀ (l : List ℕ) (acc : ℤ) (d : ℕ), d ∈ l →
      (d : ℤ) ≤ l.foldl
        (fun (acc : ℤ) (d : ℕ) => if (d : ℤ) > acc then (d : ℤ) else acc) acc := by
    intro l
    induction l with
    | nil => intro acc d hd; cases hd
    | cons x xs ih =>
        intro acc d hd
        rw [List.foldl_cons]
        rcases List.mem_cons.mp hd with rfl | hmem
        · refine le_trans ?_ (foldlMax_init_le xs _)
          split_ifs with h <;> omega
        · exact ih _ d hmem
  exact main l (-1) d hd

/-- The accumulated minimum of non-negative durations is non-negative. -/
theorem minDurAccum_nonneg (l : List ℕ) : 0 ≤ minDurAccum l := by
  have main : ∀ (l : List ℕ) (acc : ℤ), 0 ≤ acc →
      0 ≤ l.foldl
        (fun (acc : ℤ) (d : ℕ) => if (d : ℤ) < acc then (d : ℤ) else acc) acc := by
    intro l
    induction l with
    | nil => intro acc h; simpa using h
    | cons x xs ih =>
        intro acc h
        rw [List.foldl_cons]
        apply ih
        split_ifs <;> omega
  exact main l _ (by norm_num)

/-- Sturges' rule yields at least one bin for a non-empty list. -/
theorem sturgesBins_pos (l : List ℕ) (hne : l ≠ []) : 0 < sturgesBins l := by
  have hn : 1 ≤ l.length := List.length_pos.mpr hne
  obtain ⟨m, hm⟩ : ∃ m, l.length = m + 1 := ⟨l.length - 1, by omega⟩
  unfold sturgesBins calcNumBinsSturgesMethod
  rw [hm]
  have hstep : clog2Aux (m + 2) (m + 2)
      = if m + 2 ≤ 1 then 0 else clog2Aux (m + 1) ((m + 2 + 1) / 2) + 1 := rfl
  rw [hstep, if_neg (by omega)]
  exact Nat.succ_pos _

/-- The largest bin boundary `binWidth * numBins` is one of the bin
values. -/
theorem largestBinKey_mem (l : List ℕ) (nf : ℕ) (hne : l ≠ []) :
    largestBinKey l nf ∈ histBinValues l nf := by
  have hb := sturgesBins_pos l hne
  unfold histBinValues largestBinKey
  refine List.mem_map.mpr ⟨sturgesBins l - 1, List.mem_range.mpr (by omega), ?_⟩
  have h2 : (sturgesBins l - 1) + 1 = sturgesBins l := by omega
  have hc : ((sturgesBins l - 1 : ℕ) : ℚ) + 1 = (sturgesBins l : ℚ) := by
    calc ((sturgesBins l - 1 : ℕ) : ℚ) + 1
        = (((sturgesBins l - 1) + 1 : ℕ) : ℚ) := by push_cast; ring
      _ = (sturgesBins l : ℚ) := by rw [h2]
  rw [hc]
  ring

/-- With a non-negative bin width every bin value is at most the largest
bin boundary. -/
theorem binValue_le_largest (l : List ℕ) (nf : ℕ)
    (hw : 0 ≤ histBinWidth l nf) :
    ∀ b ∈ histBinValues l nf, b ≤ largestBinKey l nf := by
  intro b hb
  obtain ⟨i, hi, rfl⟩ := List.mem_map.mp hb
  have hi2 : i < sturgesBins l := List.mem_range.mp hi
  unfold largestBinKey
  rw [mul_comm (histBinWidth l nf) (sturgesBins l : ℚ)]
  apply mul_le_mul_of_nonneg_right _ hw
  have h : (i : ℚ) + 1 ≤ (sturgesBins l : ℚ) := by exact_mod_cast hi2
  exact h

/-- Bumping a histogram at a key of a duplicate-free key list adds 1 to
the sum of the counts over those keys. -/
theorem bumpAt_sum (K : List ℚ) (hK : K.Nodup) (h : ℚ → ℕ) (k : ℚ)
    (hk : k ∈ K) :
    (K.map (bumpAt h k)).sum = (K.map h).sum + 1 := by
  induction K with
  | nil => cases hk
  | cons a rest ih =>
      obtain ⟨hna, hnr⟩ := List.nodup_cons.mp hK
      rcases List.mem_cons.mp hk with rfl | hmem
      · simp only [List.map_cons, List.sum_cons]
        have hhead : bumpAt h k k = h k + 1 := by simp [bumpAt]
        have htail : rest.map (bumpAt h k) = rest.map h :=
          List.map_congr_left (fun x hx => by
            have hxk : x ≠ k := fun heq => hna (heq ▸ hx)
            simp [bumpAt, hxk])
        rw [hhead, htail]
        omega
      · simp only [List.map_cons, List.sum_cons]
        have hak : a ≠ k := fun heq => hna (heq ▸ hmem)
        have hhead : bumpAt h k a = h a := by simp [bumpAt, hak]
        rw [hhead, ih hnr hmem]
        omega

/-- Counting with `countP` respects pointwise-equal predicates on the list members. -/
theorem countP_congr_mem {α : Type} (l : List α) (p q : α → Bool)
    (h : ∀ a ∈ l, p a = q a) : l.countP p = l.countP q := by
  induction l with
  | nil => rfl
  | cons x xs ih =>
      rw [List.countP_cons, List.countP_cons,
        ih (fun a ha => h a (List.mem_cons_of_mem x ha)),
        h x (List.mem_cons_self x xs)]

/-- A boolean predicate and its negation partition a list's length. -/
theorem countP_bool_partition {α : Type} (p : α → Bool) (l : List α) :
    l.countP p + l.countP (fun a => ! p a) = l.length := by
  induction l with
  | nil => simp
  | cons x xs ih => by_cases h : p x <;> simp [List.countP_cons, h] <;> omega

/-- Folding the observation loop over an observation list adds to the
key-sum exactly the number of observations whose bin search succeeds. -/
theorem foldl_assign_sum (bins K : List ℚ) (hK : K.Nodup)
    (hsub : ∀ b ∈ bins, b ∈ K) :
    ∀ (l : List ℕ) (h : ℚ → ℕ),
      (K.map (l.foldl (assignObs bins) h)).sum
        = (K.map h).sum
          + l.countP
              (fun (obs : ℕ) =>
                (bins.find? (fun b => decide ((obs : ℚ) ≤ b))).isSome) := by
  intro l
  induction l with
  | nil => intro h; simp
  | cons x xs ih =>
      intro h
      rw [List.foldl_cons, List.countP_cons, ih (assignObs bins h x)]
      cases hfind : bins.find? (fun b => decide ((x : ℚ) ≤ b)) with
      | none =>
          simp only [assignObs, hfind]
          have h0 : (if (none : Option ℚ).isSome = true then (1 : ℕ) else 0) = 0 :=
            rfl
          rw [h0]
          omega
      | some k =>
          have hkK : k ∈ K := hsub k (List.mem_of_find?_eq_some hfind)
          simp only [assignObs, hfind]
          rw [bumpAt_sum K hK h k hkK]
          have h1 : (if (some k).isSome = true then (1 : ℕ) else 0) = 1 := rfl
          rw [h1]
          omega

/-- The histogram of any non-empty observation list conserves the
observation count: the bin counts (tail bin included) sum to the number
of observations, for every normalization factor. -/
theorem generateHistogram_conservation (l : List ℕ) (nf : ℕ) (hne : l ≠ []) :
    histTotalCount (generateHistogram l nf) = l.length := by
  have hnb := sturgesBins_pos l hne
  have hnbQ : (sturgesBins l : ℚ) ≠ 0 := Nat.cast_ne_zero.mpr (by omega)
  have hKnodup := List.nodup_dedup (histBinValues l nf)
  have hsub : ∀ b ∈ histBinValues l nf, b ∈ (histBinValues l nf).dedup :=
    fun b hb => List.mem_dedup.mpr hb
  by_cases htail : 1 < nf ∧ normalizedMaxDur l nf < maxDurAccum l
  · -- normalization clamps the range: a tail bin is appended
    have hbw : histBinWidth l nf
        = ((normalizedMaxDur l nf : ℤ) : ℚ) / (sturgesBins l : ℚ) := by
      unfold histBinWidth
      rw [if_pos htail.1, min_eq_right (by exact_mod_cast le_of_lt htail.2)]
    have hnm : (0 : ℤ) ≤ normalizedMaxDur l nf :=
      mul_nonneg (by exact_mod_cast Nat.zero_le nf) (minDurAccum_nonneg l)
    have hbw0 : 0 ≤ histBinWidth l nf := by
      rw [hbw]
      apply div_nonneg
      · exact_mod_cast hnm
      · exact_mod_cast Nat.zero_le (sturgesBins l)
    have hL : largestBinKey l nf = ((normalizedMaxDur l nf : ℤ) : ℚ) := by
      unfold largestBinKey
      rw [hbw, div_mul_cancel₀ _ hnbQ]
    have hLlt : largestBinKey l nf < ((maxDurAccum l : ℤ) : ℚ) := by
      rw [hL]
      exact_mod_cast htail.2
    have hmaxnotin : ((maxDurAccum l : ℤ) : ℚ) ∉ (histBinValues l nf).dedup := by
      intro hmem
      have hb := binValue_le_largest l nf hbw0 _ (List.mem_dedup.mp hmem)
      linarith
    unfold generateHistogram histTotalCount
    rw [if_pos htail, if_neg hmaxnotin]
    rw [List.map_append, List.sum_append]
    have hsingle : (List.map
        (fun x => if x = ((maxDurAccum l : ℤ) : ℚ) then tailBinCount l nf
                  else histFilled l nf x)
        [((maxDurAccum l : ℤ) : ℚ)]).sum = tailBinCount l nf := by
      simp
    rw [hsingle]
    have hcongr : (histBinValues l nf).dedup.map
          (fun x => if x = ((maxDurAccum l : ℤ) : ℚ) then tailBinCount l nf
                    else histFilled l nf x)
        = (histBinValues l nf).dedup.map (histFilled l nf) :=
      List.map_congr_left (fun x hx =>
        if_neg (fun heq => hmaxnotin (by rw [← heq]; exact hx)))
    rw [hcongr]
    unfold histFilled
    rw [foldl_assign_sum (histBinValues l nf) _ hKnodup hsub l (fun _ => 0)]
    have hbase : ((histBinValues l nf).dedup.map (fun _ => (0 : ℕ))).sum = 0 := by
      simp
    rw [hbase]
    have hiff : ∀ obs ∈ l,
        ((histBinValues l nf).find? (fun b => decide ((obs : ℚ) ≤ b))).isSome
          = decide ((obs : ℚ) ≤ largestBinKey l nf) := by
      intro obs _
      by_cases hobs : (obs : ℚ) ≤ largestBinKey l nf
      · have hex : ∃ b ∈ histBinValues l nf, decide ((obs : ℚ) ≤ b) = true :=
          ⟨largestBinKey l nf, largestBinKey_mem l nf hne, by simpa using hobs⟩
        simp [List.find?_isSome.mpr hex, hobs]
      · have hfs : ((histBinValues l nf).find?
            (fun b => decide ((obs : ℚ) ≤ b))) = none := by
          cases hv : (histBinValues l nf).find? (fun b => decide ((obs : ℚ) ≤ b)) with
          | none => rfl
          | some b =>
              have hble := binValue_le_largest l nf hbw0 b
                (List.mem_of_find?_eq_some hv)
              have hle : (obs : ℚ) ≤ b := by simpa using List.find?_some hv
              exact absurd (le_trans hle hble) hobs
        simp [hfs, hobs]
    rw [countP_congr_mem l _ _ hiff]
    have htc : tailBinCount l nf
        = l.countP (fun (obs : ℕ) => ! decide ((obs : ℚ) ≤ largestBinKey l nf)) := by
      unfold tailBinCount
      rw [← List.countP_eq_length_filter]
      apply countP_congr_mem
      intro a _
      rw [← decide_not]
      exact decide_eq_decide.mpr not_le.symm
    rw [htc]
    have hpart := countP_bool_partition
      (fun (obs : ℕ) => decide ((obs : ℚ) ≤ largestBinKey l nf)) l
    omega
  · -- no tail bin: the largest bin boundary is the true maximum
    unfold generateHistogram histTotalCount
    rw [if_neg htail]
    unfold histFilled
    rw [foldl_assign_sum (histBinValues l nf) _ hKnodup hsub l (fun _ => 0)]
    have hbase : ((histBinValues l nf).dedup.map (fun _ => (0 : ℕ))).sum = 0 := by
      simp
    rw [hbase]
    have hLmax : largestBinKey l nf = ((maxDurAccum l : ℤ) : ℚ) := by
      unfold largestBinKey histBinWidth
      by_cases hnf1 : 1 < nf
      · have hge : maxDurAccum l ≤ normalizedMaxDur l nf := by
          have hh := htail
          push_neg at hh
          exact hh hnf1
        rw [if_pos hnf1, min_eq_left (by exact_mod_cast hge),
          div_mul_cancel₀ _ hnbQ]
      · rw [if_neg hnf1, div_mul_cancel₀ _ hnbQ]
    have hall : ∀ obs ∈ l,
        ((histBinValues l nf).find? (fun b => decide ((obs : ℚ) ≤ b))).isSome
          = true := by
      intro obs hobs
      apply List.find?_isSome.mpr
      refine ⟨largestBinKey l nf, largestBinKey_mem l nf hne, ?_⟩
      simp only [decide_eq_true_eq]
      rw [hLmax]
      exact_mod_cast le_maxDurAccum l obs hobs
    rw [List.countP_eq_length.mpr hall]
    simp

/-- C1: for every non-empty list of observed durations and every valid
normalization factor (0 or at least 2), the histogram produced by
`generateHistogram` conserves the observation count — the bin counts,
including the optional tail bin, sum to the number of observations; and
for `[1ns, 2ns, 3ns, 4ns]` with `normFactor = 0` the number of bins is 3
and the counts sum to 4. -/
theorem histogram_count_conservation :
    (∀ (l : List ℕ) (nf : ℕ), l ≠ [] → (nf = 0 ∨ 2 ≤ nf) →
      histTotalCount (generateHistogram l nf) = l.length) ∧
    calcNumBinsSturgesMethod 4 = 3 ∧
    histTotalCount (generateHistogram [1, 2, 3, 4] 0) = 4 :=
  ⟨fun l nf hne _ => generateHistogram_conservation l nf hne,
   by decide,
   generateHistogram_conservation [1, 2, 3, 4] 0 (by decide)⟩

/-- Witness for C1 at the concrete observation list `[1, 2, 3, 4]` with
`normFactor = 0`. -/
theorem histogram_count_conservation_witness :
    (([1, 2, 3, 4] : List ℕ) ≠ [] ∧ ((0 : ℕ) = 0 ∨ 2 ≤ (0 : ℕ))) ∧
    histTotalCount (generateHistogram [1, 2, 3, 4] 0) = 4 :=
  ⟨⟨by decide, Or.inl rfl⟩,
   histogram_count_conservation.1 [1, 2, 3, 4] 0 (by decide) (Or.inl rfl)⟩

/-! ## C8: aggregator count invariant -/

/-- A Go-map update whose value change adds exactly 1 to a measure `g`
(and whose freshly created value measures 0 before the change) adds
exactly 1 to the sum of `g` over the map. -/
theorem sumAssoc_updateAssoc {α β : Type} [DecidableEq α]
    (m : List (α × β)) (key : α) (f : β → β) (d : β) (g : β → ℕ)
    (hf : ∀ v, g (f v) = g v + 1) (hd : g d = 0) :
    sumAssoc (updateAssoc m key f d) g = sumAssoc m g + 1 := by
  induction m with
  | nil => simp [updateAssoc, sumAssoc, hf, hd]
  | cons kv rest ih =>
      obtain ⟨k, v⟩ := kv
      by_cases hk : k = key
      · simp only [updateAssoc, if_pos hk, sumAssoc, List.map_cons, List.sum_cons,
          hf]
        omega
      · simp only [updateAssoc, if_neg hk, sumAssoc, List.map_cons, List.sum_cons]
        have := ih
        simp only [sumAssoc] at this
        omega

/-- One accumulation step adds 1 to the global request count. -/
theorem accumulate_globalRqsts (r : Response) (s : AccumState) :
    (accumulateResponseStats r s).globalStats.totalRqsts
      = s.globalStats.totalRqsts + 1 := rfl

/-- One accumulation step adds the response duration to the global total
request duration. -/
theorem accumulate_globalDur (r : Response) (s : AccumState) :
    (accumulateResponseStats r s).globalStats.totalRequestDuration
      = s.globalStats.totalRequestDuration + r.requestDuration := rfl

/-- One accumulation step appends exactly one timing entry. -/
theorem accumulate_timing (r : Response) (s : AccumState) :
    (accumulateResponseStats r s).timingResults.length
      = s.timingResults.length + 1 := by
  simp [accumulateResponseStats]

/-- One accumulation step adds 1 to the sum of the per-endpoint-method
request totals. -/
theorem accumulate_methodTotals (r : Response) (s : AccumState) :
    methodTotalsSum (accumulateResponseStats r s) = methodTotalsSum s + 1 := by
  unfold methodTotalsSum accumulateResponseStats
  apply sumAssoc_updateAssoc
  · intro detail
    dsimp only
    apply sumAssoc_updateAssoc
    · intro ms
      simp [bumpRqstStats]
    · rfl
  · rfl

/-- One accumulation step adds 1 to the total of all status counts. -/
theorem accumulate_statusCounts (r : Response) (s : AccumState) :
    statusCountsSum (accumulateResponseStats r s) = statusCountsSum s + 1 := by
  unfold statusCountsSum accumulateResponseStats
  apply sumAssoc_updateAssoc
  · intro detail
    dsimp only
    apply sumAssoc_updateAssoc
    · intro inner
      apply sumAssoc_updateAssoc
      · intro v
        rfl
      · rfl
    · rfl
  · rfl

/-- The five counting measures of the accumulator, relative to an
arbitrary start state, after consuming a whole arrival sequence. -/
theorem accumulateFrom_props (rs : List Response) : ∀ s : AccumState,
    (accumulateFrom rs s).globalStats.totalRqsts
      = s.globalStats.totalRqsts + rs.length ∧
    methodTotalsSum (accumulateFrom rs s) = methodTotalsSum s + rs.length ∧
    statusCountsSum (accumulateFrom rs s) = statusCountsSum s + rs.length ∧
    (accumulateFrom rs s).timingResults.length
      = s.timingResults.length + rs.length ∧
    (accumulateFrom rs s).globalStats.totalRequestDuration
      = s.globalStats.totalRequestDuration
        + (rs.map (fun r => r.requestDuration)).sum := by
  induction rs with
  | nil => intro s; simp [accumulateFrom]
  | cons r rest ih =>
      intro s
      have hfold : accumulateFrom (r :: rest) s
          = accumulateFrom rest (accumulateResponseStats r s) := rfl
      obtain ⟨i1, i2, i3, i4, i5⟩ := ih (accumulateResponseStats r s)
      rw [hfold]
      refine ⟨?_, ?_, ?_, ?_, ?_⟩
      · rw [i1, accumulate_globalRqsts]
        simp
        omega
      · rw [i2, accumulate_methodTotals]
        simp
        omega
      · rw [i3, accumulate_statusCounts]
        simp
        omega
      · rw [i4, accumulate_timing]
        simp
        omega
      · rw [i5, accumulate_globalDur]
        simp
        omega

/-- C8: starting from the fresh accumulation state, after any arrival
sequence of `n` responses the global `TotalRqsts` is `n`, the per-method
request totals sum to `n` over all endpoints and methods, all status
counts sum to `n`, the timing list has length `n`, and the global
`TotalRequestDuration` is the sum of the `n` request durations —
independently of arrival order, since the sequence is arbitrary. -/
theorem aggregator_count_invariant (rs : List Response) :
    (accumulateList rs).globalStats.totalRqsts = rs.length ∧
    methodTotalsSum (accumulateList rs) = rs.length ∧
    statusCountsSum (accumulateList rs) = rs.length ∧
    (accumulateList rs).timingResults.length = rs.length ∧
    (accumulateList rs).globalStats.totalRequestDuration
      = (rs.map (fun r => r.requestDuration)).sum := by
  have h := accumulateFrom_props rs initAccumState
  simpa [accumulateList, initAccumState, methodTotalsSum, statusCountsSum,
    sumAssoc] using h

/-! ## C5: requestor behaviour on request errors -/

/-- C5 (code bug): a worker whose first injected call fails with a
non-timeout `*url.Error` (e.g. connection refused, the normal shape of a
network failure from `client.Do`) does not log-and-abort as the spec
says: the error falls out of the type switch and the nil response body is
dereferenced, crashing the process. -/
theorem processRqst_url_error_crash :
    processRqstLoop [CallResult.urlErrorNonTimeout, CallResult.success 200 5]
      = ([], WorkerExit.nilDerefCrash) := rfl

/-! ## C2: scheduler validation conditions -/

/-- Counterexample to C2 as stated: with `runDuration = -1ns` (negative
durations parse successfully from strings like "-1ns"), `concurrency = 2`
and `numRequests = 1`, the code errors through its `runDur < 1` test, but
the claimed condition (which requires `runDuration == 0`) does not hold. -/
theorem validateConfig_claim_counterexample :
    (validateConfig 2 0 (-1) 1 [epGet100]).isErr = true ∧
    ¬ claimedFailCond 2 0 (-1) 1 [epGet100] := by
  constructor
  · decide
  · decide

/-- C2 (amended): for a non-empty endpoint list, `validateConfig` returns
an error exactly when the amended condition (with `runDuration < 1` in
place of `runDuration == 0`) holds, and returns success exactly
otherwise. (With an empty endpoint list the code panics on `% 0` rather
than returning at all.) -/
theorem validateConfig_error_iff (c r dur n : ℤ) (eps : List Endpoint)
    (hne : eps ≠ []) :
    ((validateConfig c r dur n eps).isErr = true ↔ amendedFailCond c r dur n eps) ∧
    (validateConfig c r dur n eps = ConfigResult.ok ↔
      ¬ amendedFailCond c r dur n eps) := by
  have hlen : eps.length ≠ 0 := by
    simpa [List.length_eq_zero] using hne
  have hok : validateConfig c r dur n eps = ConfigResult.ok ↔
      ¬ amendedFailCond c r dur n eps := by
    unfold validateConfig amendedFailCond
    split_ifs
    all_goals
      first
      | exact absurd (show eps.length = 0 by assumption) hlen
      | (refine iff_of_true rfl ?_
         rintro (h | h | h | h | h) <;>
           first
           | exact absurd h (by assumption)
           | exact h (by assumption))
      | (refine iff_of_false (by simp) (fun hA => hA ?_)
         first
         | exact Or.inl (by assumption)
         | exact Or.inr (Or.inl (by assumption))
         | exact Or.inr (Or.inr (Or.inl (by assumption)))
         | exact Or.inr (Or.inr (Or.inr (Or.inl (by assumption))))
         | exact Or.inr (Or.inr (Or.inr (Or.inr (by assumption)))))
  have hcr : validateConfig c r dur n eps ≠ ConfigResult.crashed := by
    unfold validateConfig
    split_ifs <;> simp_all
  refine ⟨⟨?_, ?_⟩, hok⟩
  · intro hE
    by_contra hA
    have h := hok.mpr hA
    rw [h] at hE
    exact Bool.noConfusion hE
  · intro hA
    have hno : validateConfig c r dur n eps ≠ ConfigResult.ok :=
      fun h => (hok.mp h) hA
    cases hv : validateConfig c r dur n eps with
    | ok => exact absurd hv hno
    | err m => simp [ConfigResult.isErr]
    | crashed => exact absurd hv hcr

/-! ## C3: ceiling allocation never under-allocates -/

/-- Counterexample to C3 as stated: the configuration `concurrency = 4`,
`numRequests = 8`, endpoints with weights `-145` and `245` (sum 100)
passes validation, yet the per-worker allocations multiplied by the
worker counts sum to 5 < 8 — with a negative weight the ceiling loses
requests instead of over-allocating. -/
theorem calcEPConfig_allocation_counterexample :
    validateConfig 4 0 0 8 [epNeg145, epPos245] = ConfigResult.ok ∧
    (0 : ℤ) < 8 ∧
    ([epNeg145, epPos245].map (fun ep =>
      (calcEPConfig 4 8 0 ep).1 * (calcEPConfig 4 8 0 ep).2.1)).sum < 8 :=
  ⟨by decide, by decide, by decide⟩

/-- C3 (amended): for every configuration that passes validation and has
`concurrency ≥ 1` and non-negative endpoint weights, each endpoint's
worker count is `ceil(concurrency * pct / 100)`, the worker counts sum to
at least `concurrency`, and when `numRequests > 0` the per-worker request
allocations times worker counts sum to at least `numRequests`. -/
theorem calcEPConfig_allocation_lower_bounds (c r dur n : ℤ)
    (eps : List Endpoint)
    (hok : validateConfig c r dur n eps = ConfigResult.ok)
    (hc : 1 ≤ c) (hpct : ∀ ep ∈ eps, 0 ≤ ep.rqstPercent) :
    (∀ ep ∈ eps,
      (calcEPConfig c n r ep).2.1 = ⌈(c : ℚ) * ((ep.rqstPercent : ℚ) / 100)⌉) ∧
    c ≤ (eps.map (fun ep => (calcEPConfig c n r ep).2.1)).sum ∧
    (0 < n → n ≤ (eps.map (fun ep =>
      (calcEPConfig c n r ep).1 * (calcEPConfig c n r ep).2.1)).sum) := by
  have hsum := validateConfig_ok_sum hok
  refine ⟨?_, ?_, ?_⟩
  · intro ep _
    show cdiv (c * ep.rqstPercent) 100 = _
    rw [cdiv_eq_ceil _ _ (by norm_num)]
    congr 1
    push_cast
    ring
  · exact sum_cdiv_pct_ge c eps hsum
  · intro _
    have hterm : ∀ ep ∈ eps, cdiv (n * ep.rqstPercent) 100
        ≤ (calcEPConfig c n r ep).1 * (calcEPConfig c n r ep).2.1 := by
      intro ep hep
      exact ep_alloc_term_ge c n ep.rqstPercent hc (hpct ep hep)
    calc n ≤ (eps.map (fun ep => cdiv (n * ep.rqstPercent) 100)).sum :=
          sum_cdiv_pct_ge n eps hsum
      _ ≤ _ := List.sum_le_sum hterm

/-- Witness for the amended C3 at `concurrency = 2`, `numRequests = 2`,
one endpoint at 100%. -/
theorem calcEPConfig_allocation_lower_bounds_witness :
    (validateConfig 2 0 0 2 [epGet100] = ConfigResult.ok ∧ (1 : ℤ) ≤ 2 ∧
      (∀ ep ∈ ([epGet100] : List Endpoint), 0 ≤ ep.rqstPercent)) ∧
    (2 : ℤ) ≤ ([epGet100].map (fun ep => (calcEPConfig 2 2 0 ep).2.1)).sum :=
  ⟨⟨by decide, by decide, by decide⟩,
   (calcEPConfig_allocation_lower_bounds 2 0 0 2 [epGet100] (by decide)
     (by decide) (by decide)).2.1⟩

/-! ## C4: all allocations are ceilings -/

/-- C4: `calcEPConfig` computes every allocation by a ceiling — worker
count, endpoint total requests, per-worker requests, endpoint rate and
per-worker rate — whenever the worker count is positive; and concretely
`concurrency = 2`, `numRequests = 5`, `rate = 1000`, one endpoint at 100%
yields `(perWorkerRequests, workerCount, perWorkerRate) = (3, 2, 500)`,
so the total issued is `3 * 2 = 6` (documented over-allocation). -/
theorem calcEPConfig_ceilings (c n r : ℤ) (ep : Endpoint)
    (hw : 0 < cdiv (c * ep.rqstPercent) 100) :
    (calcEPConfig c n r ep).2.1 = ⌈(c : ℚ) * ((ep.rqstPercent : ℚ) / 100)⌉ ∧
    cdiv (n * ep.rqstPercent) 100 = ⌈(n : ℚ) * ((ep.rqstPercent : ℚ) / 100)⌉ ∧
    (calcEPConfig c n r ep).1
      = ⌈((cdiv (n * ep.rqstPercent) 100 : ℤ) : ℚ)
          / ((cdiv (c * ep.rqstPercent) 100 : ℤ) : ℚ)⌉ ∧
    cdiv (r * ep.rqstPercent) 100 = ⌈(r : ℚ) * ((ep.rqstPercent : ℚ) / 100)⌉ ∧
    (calcEPConfig c n r ep).2.2
      = ⌈((cdiv (r * ep.rqstPercent) 100 : ℤ) : ℚ)
          / ((cdiv (c * ep.rqstPercent) 100 : ℤ) : ℚ)⌉ ∧
    calcEPConfig 2 5 1000 epGet100 = (3, 2, 500) ∧
    (calcEPConfig 2 5 1000 epGet100).1 * (calcEPConfig 2 5 1000 epGet100).2.1
      = 6 := by
  have hwne : cdiv (c * ep.rqstPercent) 100 ≠ 0 := by omega
  refine ⟨?_, ?_, ?_, ?_, ?_, by decide, by decide⟩
  · show cdiv (c * ep.rqstPercent) 100 = _
    rw [cdiv_eq_ceil _ _ (by norm_num)]
    congr 1
    push_cast
    ring
  · rw [cdiv_eq_ceil _ _ (by norm_num)]
    congr 1
    push_cast
    ring
  · show cdiv (cdiv (n * ep.rqstPercent) 100) (cdiv (c * ep.rqstPercent) 100) = _
    exact cdiv_eq_ceil _ _ hwne
  · rw [cdiv_eq_ceil _ _ (by norm_num)]
    congr 1
    push_cast
    ring
  · show cdiv (cdiv (r * ep.rqstPercent) 100) (cdiv (c * ep.rqstPercent) 100) = _
    exact cdiv_eq_ceil _ _ hwne

/-- Witness for C4 at the concrete spec example. -/
theorem calcEPConfig_ceilings_witness :
    (0 : ℤ) < cdiv (2 * epGet100.rqstPercent) 100 ∧
    calcEPConfig 2 5 1000 epGet100 = (3, 2, 500) :=
  ⟨by decide, (calcEPConfig_ceilings 2 5 1000 epGet100 (by decide)).2.2.2.2.2.1⟩

/-- Witness for the amended C2 at the counterexample input. -/
theorem validateConfig_error_iff_witness :
    (([epGet100] : List Endpoint) ≠ []) ∧
    ((validateConfig 2 0 (-1) 1 [epGet100]).isErr = true ↔
      amendedFailCond 2 0 (-1) 1 [epGet100]) :=
  ⟨by decide, (validateConfig_error_iff 2 0 (-1) 1 [epGet100] (by decide)).1⟩

end Heyyall
